import Mathlib

/-!
Verification of `maidsafe::crux::detail::transmit_queue`
(include/maidsafe/crux/detail/transmit_queue.hpp).

The queue is embedded shallowly as a state machine.  `QState` mirrors the
data members of the C++ class; the closures of the source (`step` and
`handler` of each entry, and the continuation lambda created by
`start_step`) are represented by observable events: every invocation the
queue performs is recorded in an event trace.  Each pushed entry (also a
duplicate-rejected one) is given a fresh ghost identifier `eid`, so that
"this entry's handler" is the set of handler events carrying that `eid`.

Asynchrony is made explicit: `start_step` registers a pending continuation
(the lambda the source passes to `entry->step`); the environment may later
fire any pending continuation with an arbitrary error code and byte count
(`fire_cont`, mirroring the body of the lambda in `start_step`).  The
timer (`detail::timer`, not part of this tree) is modelled from the spec:
`start`, `stop`, `set_period`, and a tick callback firing while started.
-/

/-- Error-code vocabulary delivered through handlers, mirroring
`boost::system::error_code` values used by the source: success (default
constructed), `boost::asio::error::already_started`,
`boost::asio::error::operation_aborted`, and arbitrary transport errors. -/
inductive Err where
  | success : Err
  | already_started : Err
  | operation_aborted : Err
  | transport : Nat → Err
deriving DecidableEq, Repr

/-- Truthiness of a `boost::system::error_code`: true iff not success. -/
def Err.isError : Err → Bool
  | Err.success => false
  | _ => true

/-- Observable events emitted by the queue: step invocations, handler
invocations (inline or posted to the io_service), and timer operations.
`tokenInvalidated` records `shutdown_indicator.reset()`. -/
inductive Ev where
  | stepStarted : Nat → Ev
  | handlerInline : Nat → Err → Nat → Ev
  | handlerPosted : Nat → Err → Nat → Ev
  | tokenInvalidated : Ev
  | timerStop : Ev
  | timerSetPeriod : Nat → Ev
  | timerStart : Ev
deriving DecidableEq, Repr

/-- One `entry_type` of the source: `buffer_size`, `period`, plus the ghost
identifier `eid` naming the entry's `step`/`handler` closures. -/
structure EntryRec where
  eid : Nat
  buffer_size : Nat
  period : Nat
deriving DecidableEq, Repr

/-- An in-flight continuation created by `start_step`: it captured the
entry (shared pointer), of which only the handler identity and the period
are ever used by the lambda's body. -/
structure Pend where
  eid : Nat
  period : Nat
deriving DecidableEq, Repr

/-- The data members of `transmit_queue`, plus the ghost `eid` allocator
and the set of in-flight continuations.  `entries` is the `std::map`,
kept as an association list sorted ascending by key; `shutdownDone` is
true iff `shutdown_indicator` has been reset (the weak-pointer lock in the
continuation fails exactly then, since the token is created once in the
constructor and never re-created). -/
structure QState where
  nextEid : Nat
  entries : List (Nat × EntryRec)
  pending : List Pend
  timerRunning : Bool
  timerPeriod : Nat
  shutdownDone : Bool
deriving DecidableEq, Repr

/-- Modelled from the spec: the external initial retry interval constant
(`constant::initial_roundtrip_time` from detail/constants.hpp, which is
not part of this tree).  The spec says it is "supplied externally, used
verbatim"; its value is irrelevant to every claim, so an arbitrary one is
chosen. -/
def initial_roundtrip_time : Nat := 200

/-- The state right after the constructor ran. -/
def initState : QState :=
  { nextEid := 0, entries := [], pending := [], timerRunning := false,
    timerPeriod := 0, shutdownDone := false }

/-- Keys of the entry map. -/
def keysOf (l : List (Nat × EntryRec)) : List Nat := l.map Prod.fst

/-- Ghost handler identities of the entry map. -/
def eidsOf (l : List (Nat × EntryRec)) : List Nat := l.map (fun p => p.2.eid)

/-- `entries.find(index)` on the sorted association list. -/
def lookupEntry : List (Nat × EntryRec) → Nat → Option EntryRec
  | [], _ => none
  | (k, v) :: rest, i => if k = i then some v else lookupEntry rest i

/-- `entries.insert`: insertion keeping the ascending key order of
`std::map` (only ever called on an absent key). -/
def insertSorted : List (Nat × EntryRec) → Nat → EntryRec → List (Nat × EntryRec)
  | [], i, e => [(i, e)]
  | (k, v) :: rest, i, e =>
      if i < k then (i, e) :: (k, v) :: rest
      else (k, v) :: insertSorted rest i e

/-- `entries.erase(entry_i)`: removal of the entry with the given key
(unique on the map representation). -/
def eraseKey (l : List (Nat × EntryRec)) (i : Nat) : List (Nat × EntryRec) :=
  l.filter (fun p => p.1 ≠ i)

/-- `transmit_queue::start_step`: invokes `entry->step` with a fresh
continuation capturing the entry and a weak reference to the shutdown
token.  The invocation is recorded; the continuation becomes pending. -/
def start_step (s : QState) (e : EntryRec) : QState × List Ev :=
  ({s with pending := s.pending ++ [⟨e.eid, e.period⟩]}, [Ev.stepStarted e.eid])

/-- `transmit_queue::push`.  The ghost `eid` for the call's handler is
allocated first.  On a duplicate key the map is untouched and the new
handler is posted with `already_started` and size 0; otherwise the entry
is inserted with `period = initial_roundtrip_time`, and if the map was
empty beforehand its step is started. -/
def push (s : QState) (index bsize : Nat) : QState × List Ev :=
  match lookupEntry s.entries index with
  | some _ =>
      ({s with nextEid := s.nextEid + 1},
       [Ev.handlerPosted s.nextEid Err.already_started 0])
  | none =>
      let e : EntryRec := ⟨s.nextEid, bsize, initial_roundtrip_time⟩
      let s1 : QState := {s with nextEid := s.nextEid + 1,
                                 entries := insertSorted s.entries index e}
      if s.entries.isEmpty then start_step s1 e else (s1, [])

/-- `transmit_queue::apply_ack`.  Absent key: no-op.  Present key: the
entry is erased; if it was `entries.begin()` the timer is stopped and, if
entries remain, the new first entry's step is started; finally the removed
entry's handler is invoked with success and its `buffer_size`. -/
def apply_ack (s : QState) (index : Nat) : QState × List Ev :=
  match lookupEntry s.entries index with
  | none => (s, [])
  | some e =>
      let isActive : Bool :=
        match s.entries with
        | [] => false
        | (k, _) :: _ => k == index
      let s1 : QState := {s with entries := eraseKey s.entries index}
      if isActive then
        let s2 : QState := {s1 with timerRunning := false}
        match s2.entries with
        | [] => (s2, [Ev.timerStop, Ev.handlerInline e.eid Err.success e.buffer_size])
        | (_, h) :: _ =>
            let r := start_step s2 h
            (r.1, Ev.timerStop :: (r.2 ++ [Ev.handlerInline e.eid Err.success e.buffer_size]))
      else
        (s1, [Ev.handlerInline e.eid Err.success e.buffer_size])

/-- `transmit_queue::shutdown`: resets the token, stops the timer, moves
the map out, and posts every moved entry's handler with
`operation_aborted` and its `buffer_size`. -/
def shutdown (s : QState) : QState × List Ev :=
  ({s with shutdownDone := true, timerRunning := false, entries := []},
   Ev.tokenInvalidated :: Ev.timerStop ::
     s.entries.map (fun p => Ev.handlerPosted p.2.eid Err.operation_aborted p.2.buffer_size))

/-- The body of the continuation lambda in `start_step`, fired by the
environment for the `k`-th in-flight continuation with a reported error
and byte count: if the shutdown token is dead or an error is reported, the
entry's handler is invoked directly; otherwise the timer's period is set
to the entry's period and the timer is started. -/
def fire_cont (s : QState) (k : Nat) (err : Err) (bytes : Nat) : QState × List Ev :=
  match s.pending[k]? with
  | none => (s, [])
  | some p =>
      let s1 : QState := {s with pending := s.pending.eraseIdx k}
      if s.shutdownDone || err.isError then
        (s1, [Ev.handlerInline p.eid err bytes])
      else
        ({s1 with timerPeriod := p.period, timerRunning := true},
         [Ev.timerSetPeriod p.period, Ev.timerStart])

/-- `transmit_queue::on_timer_tick`: if entries exist, start the first
entry's step. -/
def on_timer_tick (s : QState) : QState × List Ev :=
  match s.entries with
  | [] => (s, [])
  | (_, h) :: _ => start_step s h

/-- Modelled from the spec: the timer (detail/timer.hpp is not part of
this tree) invokes its registered callback periodically while started, so
a tick may fire whenever the timer is running and leaves it running. -/
def timer_tick (s : QState) : QState × List Ev :=
  if s.timerRunning then on_timer_tick s else (s, [])

/-- `transmit_queue::empty`. -/
def empty (s : QState) : Bool := s.entries.isEmpty

/-- `transmit_queue::size`. -/
def size (s : QState) : Nat := s.entries.length

/-- An environment action: a public method call, a continuation firing, or
a timer tick. -/
inductive Act where
  | push : Nat → Nat → Act
  | applyAck : Nat → Act
  | shutdown : Act
  | fireCont : Nat → Err → Nat → Act
  | timerTick : Act
deriving DecidableEq, Repr

def isFire : Act → Bool
  | Act.fireCont _ _ _ => true
  | _ => false

/-- One action of the environment against the queue. -/
def doAct (s : QState) : Act → QState × List Ev
  | Act.push i b => push s i b
  | Act.applyAck i => apply_ack s i
  | Act.shutdown => shutdown s
  | Act.fireCont k e b => fire_cont s k e b
  | Act.timerTick => timer_tick s

/-- Run a sequence of actions, accumulating the event trace. -/
def run (s : QState) : List Act → QState × List Ev
  | [] => (s, [])
  | a :: rest =>
      let r1 := doAct s a
      let r2 := run r1.1 rest
      (r2.1, r1.2 ++ r2.2)

/-- How many times the handler with ghost identity `x` is invoked in a
trace (inline invocations and posted ones both count: a posted handler
runs exactly once on the io_service). -/
def handlerCount : List Ev → Nat → Nat
  | [], _ => 0
  | Ev.handlerInline e _ _ :: tr, x => (if e = x then 1 else 0) + handlerCount tr x
  | Ev.handlerPosted e _ _ :: tr, x => (if e = x then 1 else 0) + handlerCount tr x
  | _ :: tr, x => handlerCount tr x

/-- Handler identities currently present in the table. -/
def tableEids (s : QState) : List Nat := eidsOf s.entries

/-- Occurrence count in a list of naturals. -/
def cnt : List Nat → Nat → Nat
  | [], _ => 0
  | y :: l, x => (if y = x then 1 else 0) + cnt l x

/-- A tame action sequence: every continuation firing reports success and
happens before any `shutdown` (`sd` is the shutdown flag already reached).
Under this restriction no continuation ever invokes a handler itself. -/
def tameFrom : Bool → List Act → Bool
  | _, [] => true
  | _, Act.shutdown :: rest => rest.all (fun a => !isFire a)
  | sd, Act.fireCont _ err _ :: rest => !sd && !err.isError && tameFrom sd rest
  | sd, _ :: rest => tameFrom sd rest

def tame (acts : List Act) : Bool := tameFrom false acts

/-- First key of the map (`entries.begin()`), if any. -/
def headKey (s : QState) : Option Nat := s.entries.head?.map Prod.fst

/-- The map keeps its keys strictly ascending (the `std::map` ordering
invariant). -/
def sortedEntries (l : List (Nat × EntryRec)) : Prop :=
  List.Pairwise (fun p q => p.1 < q.1) l

lemma handlerCount_append (a b : List Ev) (x : Nat) :
    handlerCount (a ++ b) x = handlerCount a x + handlerCount b x := by
  induction a with
  | nil => simp [handlerCount]
  | cons e tr ih => cases e <;> simp [handlerCount, ih] <;> omega

lemma cnt_append (a b : List Nat) (x : Nat) :
    cnt (a ++ b) x = cnt a x + cnt b x := by
  induction a with
  | nil => simp [cnt]
  | cons y l ih => simp [cnt, ih]; omega

lemma cnt_eq_zero_of_not_mem (l : List Nat) (x : Nat) (h : x ∉ l) : cnt l x = 0 := by
  induction l with
  | nil => rfl
  | cons y l ih =>
      have hy : y ≠ x := fun hh => h (hh ▸ List.mem_cons_self y l)
      have hm : x ∉ l := fun hh => h (List.mem_cons_of_mem y hh)
      simp [cnt, hy, ih hm]

lemma cnt_pos_of_mem (l : List Nat) (x : Nat) (h : x ∈ l) : 0 < cnt l x := by
  induction l with
  | nil => cases h
  | cons y l ih =>
      rcases List.mem_cons.mp h with h | h
      · simp [cnt, h.symm]
      · have := ih h
        simp [cnt]
        omega

lemma cnt_eq_one_of_nodup (l : List Nat) (x : Nat) (hn : l.Nodup) (hx : x ∈ l) :
    cnt l x = 1 := by
  induction l with
  | nil => cases hx
  | cons y l ih =>
      rcases List.nodup_cons.mp hn with ⟨hy, hl⟩
      rcases List.mem_cons.mp hx with h | h
      · subst h
        simp [cnt, cnt_eq_zero_of_not_mem l x hy]
      · have hyx : y ≠ x := fun hh => hy (hh ▸ h)
        simp [cnt, hyx, ih hl h]

lemma eidsOf_cons (p : Nat × EntryRec) (l : List (Nat × EntryRec)) :
    eidsOf (p :: l) = p.2.eid :: eidsOf l := rfl

lemma keysOf_cons (p : Nat × EntryRec) (l : List (Nat × EntryRec)) :
    keysOf (p :: l) = p.1 :: keysOf l := rfl

lemma handlerCount_posts (l : List (Nat × EntryRec)) (x : Nat) :
    handlerCount
      (l.map (fun p => Ev.handlerPosted p.2.eid Err.operation_aborted p.2.buffer_size)) x
      = cnt (eidsOf l) x := by
  induction l with
  | nil => rfl
  | cons p l ih => simp [handlerCount, eidsOf, cnt, ih]

lemma mem_keys_of_lookup (l : List (Nat × EntryRec)) (i : Nat) (e : EntryRec)
    (h : lookupEntry l i = some e) : i ∈ keysOf l := by
  induction l with
  | nil => cases h
  | cons p l ih =>
      obtain ⟨k, v⟩ := p
      by_cases hk : k = i
      · simp [keysOf_cons, hk]
      · simp only [lookupEntry, if_neg hk] at h
        exact List.mem_cons_of_mem _ (ih h)

lemma lookup_none_of_not_mem (l : List (Nat × EntryRec)) (i : Nat)
    (h : i ∉ keysOf l) : lookupEntry l i = none := by
  induction l with
  | nil => rfl
  | cons p l ih =>
      obtain ⟨k, v⟩ := p
      have hk : k ≠ i := fun hh => h (hh ▸ List.mem_cons_self k (keysOf l))
      have hm : i ∉ keysOf l := fun hh => h (List.mem_cons_of_mem k hh)
      simp [lookupEntry, hk, ih hm]

lemma lookup_insertSorted_self (l : List (Nat × EntryRec)) (i : Nat) (e : EntryRec)
    (h : lookupEntry l i = none) :
    lookupEntry (insertSorted l i e) i = some e := by
  induction l with
  | nil => simp [insertSorted, lookupEntry]
  | cons p l ih =>
      obtain ⟨k, v⟩ := p
      by_cases hk : k = i
      · simp [lookupEntry, hk] at h
      · simp only [lookupEntry, if_neg hk] at h
        simp only [insertSorted]
        by_cases hik : i < k
        · simp [hik, lookupEntry]
        · simp [hik, lookupEntry, hk, ih h]

lemma length_insertSorted (l : List (Nat × EntryRec)) (i : Nat) (e : EntryRec) :
    (insertSorted l i e).length = l.length + 1 := by
  induction l with
  | nil => rfl
  | cons p l ih =>
      obtain ⟨k, v⟩ := p
      simp only [insertSorted]
      by_cases hik : i < k
      · simp [hik]
      · simp [hik, ih]

lemma mem_insertSorted (l : List (Nat × EntryRec)) (i : Nat) (e : EntryRec)
    (p : Nat × EntryRec) :
    p ∈ insertSorted l i e ↔ p = (i, e) ∨ p ∈ l := by
  induction l with
  | nil => simp [insertSorted]
  | cons q l ih =>
      obtain ⟨k, v⟩ := q
      simp only [insertSorted]
      by_cases hik : i < k
      · simp [hik]
      · simp [hik, ih]
        tauto

lemma pairwise_insertSorted (l : List (Nat × EntryRec)) (i : Nat) (e : EntryRec)
    (hl : lookupEntry l i = none) (hp : sortedEntries l) :
    sortedEntries (insertSorted l i e) := by
  induction l with
  | nil =>
      show List.Pairwise _ [(i, e)]
      simp
  | cons q l ih =>
      obtain ⟨k, v⟩ := q
      by_cases hk : k = i
      · simp [lookupEntry, hk] at hl
      · simp only [lookupEntry, if_neg hk] at hl
        have hall : ∀ q ∈ l, (k, v).1 < q.1 := (List.pairwise_cons.mp hp).1
        have htl : List.Pairwise (fun p q => p.1 < q.1) l := (List.pairwise_cons.mp hp).2
        show List.Pairwise _ (insertSorted ((k, v) :: l) i e)
        simp only [insertSorted]
        by_cases hik : i < k
        · rw [if_pos hik]
          apply List.pairwise_cons.mpr
          refine ⟨?_, hp⟩
          intro q hq
          rcases List.mem_cons.mp hq with h | h
          · subst h; exact hik
          · exact lt_trans hik (hall q h)
        · have hki : k < i := by omega
          rw [if_neg hik]
          apply List.pairwise_cons.mpr
          refine ⟨?_, ih hl htl⟩
          intro q hq
          rcases (mem_insertSorted l i e q).mp hq with h | h
          · subst h; exact hki
          · exact hall q h

lemma eids_insertSorted (l : List (Nat × EntryRec)) (i : Nat) (e : EntryRec) (x : Nat) :
    cnt (eidsOf (insertSorted l i e)) x
      = (if e.eid = x then 1 else 0) + cnt (eidsOf l) x := by
  induction l with
  | nil => simp [insertSorted, eidsOf, cnt]
  | cons q l ih =>
      obtain ⟨k, v⟩ := q
      simp only [insertSorted]
      by_cases hik : i < k
      · simp [hik, eidsOf, cnt]
      · simp [hik, eidsOf, cnt] at ih ⊢
        omega

lemma lookup_eraseKey (l : List (Nat × EntryRec)) (i : Nat) :
    lookupEntry (eraseKey l i) i = none := by
  apply lookup_none_of_not_mem
  intro h
  rcases List.mem_map.mp h with ⟨p, hp, hpi⟩
  rcases List.mem_filter.mp hp with ⟨_, hne⟩
  simp at hne
  exact hne hpi

lemma sorted_eraseKey (l : List (Nat × EntryRec)) (i : Nat) (hp : sortedEntries l) :
    sortedEntries (eraseKey l i) :=
  List.Pairwise.sublist (List.filter_sublist l) hp

lemma filter_ne_eq_self (l : List (Nat × EntryRec)) (i : Nat)
    (h : ∀ p ∈ l, p.1 ≠ i) : eraseKey l i = l := by
  apply List.filter_eq_self.mpr
  intro p hp
  simpa using h p hp

lemma eraseKey_cons_self (k : Nat) (v : EntryRec) (l : List (Nat × EntryRec)) :
    eraseKey ((k, v) :: l) k = eraseKey l k := by
  simp [eraseKey]

lemma eraseKey_cons_ne (k : Nat) (v : EntryRec) (l : List (Nat × EntryRec))
    (i : Nat) (h : k ≠ i) :
    eraseKey ((k, v) :: l) i = (k, v) :: eraseKey l i := by
  simp [eraseKey, h]

lemma cnt_erase (l : List (Nat × EntryRec)) (i : Nat) (e : EntryRec)
    (hp : sortedEntries l) (hl : lookupEntry l i = some e) (x : Nat) :
    cnt (eidsOf l) x
      = cnt (eidsOf (eraseKey l i)) x + (if e.eid = x then 1 else 0) := by
  induction l with
  | nil => cases hl
  | cons q l ih =>
      obtain ⟨k, v⟩ := q
      have hall : ∀ q ∈ l, (k, v).1 < q.1 := (List.pairwise_cons.mp hp).1
      have htl : List.Pairwise (fun p q => p.1 < q.1) l := (List.pairwise_cons.mp hp).2
      by_cases hk : k = i
      · subst hk
        have hve : v = e := by simpa [lookupEntry] using hl
        subst hve
        have hrest : eraseKey l k = l := by
          apply filter_ne_eq_self
          intro p hp'
          have := hall p hp'
          omega
        rw [eraseKey_cons_self, hrest]
        simp [eidsOf, cnt]
        omega
      · simp only [lookupEntry, if_neg hk] at hl
        rw [eraseKey_cons_ne k v l i hk]
        have := ih htl hl
        simp [eidsOf, cnt] at this ⊢
        omega

lemma push_shutdownDone (s : QState) (i b : Nat) :
    (push s i b).1.shutdownDone = s.shutdownDone := by
  cases hL : lookupEntry s.entries i with
  | none =>
      simp only [push, hL]
      by_cases he : s.entries.isEmpty <;> simp [he, start_step]
  | some e => simp [push, hL]

lemma push_timerRunning (s : QState) (i b : Nat) :
    (push s i b).1.timerRunning = s.timerRunning := by
  cases hL : lookupEntry s.entries i with
  | none =>
      simp only [push, hL]
      by_cases he : s.entries.isEmpty <;> simp [he, start_step]
  | some e => simp [push, hL]

lemma ack_shutdownDone (s : QState) (i : Nat) :
    (apply_ack s i).1.shutdownDone = s.shutdownDone := by
  cases hL : lookupEntry s.entries i with
  | none => simp [apply_ack, hL]
  | some e =>
      simp only [apply_ack, hL]
      split
      · split <;> simp [start_step]
      · rfl

lemma ack_timerRunning (s : QState) (i : Nat)
    (h : (apply_ack s i).1.timerRunning = true) : s.timerRunning = true := by
  cases hL : lookupEntry s.entries i with
  | none => simp [apply_ack, hL] at h; exact h
  | some e =>
      simp only [apply_ack, hL] at h
      revert h
      split
      · split <;> simp [start_step]
      · exact fun h => h

lemma fire_shutdownDone (s : QState) (k : Nat) (err : Err) (bytes : Nat) :
    (fire_cont s k err bytes).1.shutdownDone = s.shutdownDone := by
  cases hP : s.pending[k]? with
  | none => simp [fire_cont, hP]
  | some p =>
      simp only [fire_cont, hP]
      split <;> rfl

lemma fire_timerRunning (s : QState) (k : Nat) (err : Err) (bytes : Nat)
    (h : (fire_cont s k err bytes).1.timerRunning = true) :
    s.timerRunning = true ∨ s.shutdownDone = false := by
  cases hP : s.pending[k]? with
  | none => simp [fire_cont, hP] at h; exact Or.inl h
  | some p =>
      simp only [fire_cont, hP] at h
      revert h
      split
      · exact fun h => Or.inl h
      · rename_i hcond
        intro _
        right
        rcases Bool.or_eq_false_iff.mp (eq_false_of_ne_true hcond) with ⟨h1, _⟩
        exact h1

lemma tick_shutdownDone (s : QState) :
    (timer_tick s).1.shutdownDone = s.shutdownDone := by
  simp only [timer_tick, on_timer_tick]
  split
  · split <;> simp [start_step]
  · rfl

lemma tick_timerRunning (s : QState) :
    (timer_tick s).1.timerRunning = s.timerRunning := by
  simp only [timer_tick, on_timer_tick]
  split
  · split <;> simp [start_step]
  · rfl

lemma inv8_doAct (s : QState) (a : Act)
    (h : s.timerRunning = true → s.shutdownDone = false) :
    (doAct s a).1.timerRunning = true → (doAct s a).1.shutdownDone = false := by
  cases a with
  | push i b =>
      intro ht
      rw [doAct, push_shutdownDone]
      exact h (by rw [doAct, push_timerRunning] at ht; exact ht)
  | applyAck i =>
      intro ht
      rw [doAct, ack_shutdownDone]
      exact h (ack_timerRunning s i ht)
  | shutdown =>
      intro ht
      cases ht
  | fireCont k err b =>
      intro ht
      rw [doAct, fire_shutdownDone]
      rcases fire_timerRunning s k err b ht with h1 | h1
      · exact h h1
      · exact h1
  | timerTick =>
      intro ht
      rw [doAct, tick_shutdownDone]
      exact h (by rw [doAct, tick_timerRunning] at ht; exact ht)

lemma inv8_run (acts : List Act) : ∀ s : QState,
    (s.timerRunning = true → s.shutdownDone = false) →
    ((run s acts).1.timerRunning = true → (run s acts).1.shutdownDone = false) := by
  induction acts with
  | nil => exact fun s h => h
  | cons a rest ih =>
      intro s h
      simp only [run]
      exact ih (doAct s a).1 (inv8_doAct s a h)

/-- The exactly-once bookkeeping invariant: the map is sorted, and for
every handler identity `x`, the number of invocations already in the trace
plus the number of occurrences of `x` in the table is 1 if `x` has been
allocated and 0 otherwise. -/
def InvC1 (s : QState) (tr : List Ev) : Prop :=
  sortedEntries s.entries
  ∧ ∀ x, handlerCount tr x + cnt (tableEids s) x = (if x < s.nextEid then 1 else 0)

lemma invC1_push (s : QState) (tr : List Ev) (i b : Nat) (h : InvC1 s tr) :
    InvC1 (push s i b).1 (tr ++ (push s i b).2) := by
  obtain ⟨hsorted, hcount⟩ := h
  cases hL : lookupEntry s.entries i with
  | some e =>
      have hEq : push s i b
          = ({s with nextEid := s.nextEid + 1},
             [Ev.handlerPosted s.nextEid Err.already_started 0]) := by
        simp [push, hL]
      rw [hEq]
      refine ⟨hsorted, ?_⟩
      intro x
      have hx := hcount x
      have hne := hcount s.nextEid
      simp only [tableEids] at hx hne ⊢
      simp only [handlerCount_append, handlerCount]
      split_ifs at hx hne ⊢ <;> omega
  | none =>
      have hsorted' :=
        pairwise_insertSorted s.entries i ⟨s.nextEid, b, initial_roundtrip_time⟩ hL hsorted
      have hE1 : (push s i b).1.entries
          = insertSorted s.entries i ⟨s.nextEid, b, initial_roundtrip_time⟩ := by
        simp only [push, hL]
        by_cases he : s.entries.isEmpty <;> simp [he, start_step]
      have hE2 : (push s i b).1.nextEid = s.nextEid + 1 := by
        simp only [push, hL]
        by_cases he : s.entries.isEmpty <;> simp [he, start_step]
      have hE3 : ∀ x, handlerCount (push s i b).2 x = 0 := by
        intro x
        simp only [push, hL]
        by_cases he : s.entries.isEmpty <;> simp [he, start_step, handlerCount]
      have hins := fun x =>
        eids_insertSorted s.entries i ⟨s.nextEid, b, initial_roundtrip_time⟩ x
      refine ⟨by rw [hE1]; exact hsorted', ?_⟩
      intro x
      have hx := hcount x
      have hne := hcount s.nextEid
      rw [handlerCount_append, hE3, tableEids, hE1, hE2]
      have hi := hins x
      simp only [tableEids] at hx hne
      dsimp only at hi
      split_ifs at hx hne hi ⊢ <;> omega

lemma invC1_ack (s : QState) (tr : List Ev) (i : Nat) (h : InvC1 s tr) :
    InvC1 (apply_ack s i).1 (tr ++ (apply_ack s i).2) := by
  obtain ⟨hsorted, hcount⟩ := h
  cases hL : lookupEntry s.entries i with
  | none =>
      have hEq : apply_ack s i = (s, []) := by simp [apply_ack, hL]
      rw [hEq]
      exact ⟨hsorted, by simpa using hcount⟩
  | some e =>
      have hE1 : (apply_ack s i).1.entries = eraseKey s.entries i := by
        simp only [apply_ack, hL]
        split
        · split <;> simp [start_step]
        · rfl
      have hE2 : (apply_ack s i).1.nextEid = s.nextEid := by
        simp only [apply_ack, hL]
        split
        · split <;> simp [start_step]
        · rfl
      have hE3 : ∀ x, handlerCount (apply_ack s i).2 x = (if e.eid = x then 1 else 0) := by
        intro x
        simp only [apply_ack, hL]
        split
        · split <;> simp [start_step, handlerCount]
        · simp [handlerCount]
      have hcnt := fun x => cnt_erase s.entries i e hsorted hL x
      refine ⟨by rw [hE1]; exact sorted_eraseKey _ _ hsorted, ?_⟩
      intro x
      have hx := hcount x
      have hc := hcnt x
      rw [handlerCount_append, hE3, tableEids, hE1, hE2]
      simp only [tableEids] at hx
      split_ifs at hx hc ⊢ <;> omega

lemma invC1_shutdown (s : QState) (tr : List Ev) (h : InvC1 s tr) :
    InvC1 (shutdown s).1 (tr ++ (shutdown s).2) := by
  obtain ⟨hsorted, hcount⟩ := h
  refine ⟨by show List.Pairwise _ []; simp, ?_⟩
  intro x
  have hx := hcount x
  show handlerCount (tr ++ Ev.tokenInvalidated :: Ev.timerStop :: _) x + cnt (eidsOf []) x
      = if x < s.nextEid then 1 else 0
  rw [handlerCount_append]
  simp only [handlerCount, handlerCount_posts]
  simp only [tableEids, eidsOf, List.map_nil, cnt] at hx ⊢
  omega

lemma invC1_fire (s : QState) (tr : List Ev) (k : Nat) (err : Err) (bytes : Nat)
    (hsd : s.shutdownDone = false) (he : err.isError = false) (h : InvC1 s tr) :
    InvC1 (fire_cont s k err bytes).1 (tr ++ (fire_cont s k err bytes).2) := by
  obtain ⟨hsorted, hcount⟩ := h
  cases hP : s.pending[k]? with
  | none =>
      have hEq : fire_cont s k err bytes = (s, []) := by simp [fire_cont, hP]
      rw [hEq]
      exact ⟨hsorted, by simpa using hcount⟩
  | some p =>
      have hEq : fire_cont s k err bytes
          = ({s with pending := s.pending.eraseIdx k,
                     timerPeriod := p.period, timerRunning := true},
             [Ev.timerSetPeriod p.period, Ev.timerStart]) := by
        simp [fire_cont, hP, hsd, he]
      rw [hEq]
      refine ⟨hsorted, ?_⟩
      intro x
      have hx := hcount x
      rw [handlerCount_append]
      simp only [handlerCount, tableEids] at hx ⊢
      omega

lemma invC1_tick (s : QState) (tr : List Ev) (h : InvC1 s tr) :
    InvC1 (timer_tick s).1 (tr ++ (timer_tick s).2) := by
  obtain ⟨hsorted, hcount⟩ := h
  have hE1 : (timer_tick s).1.entries = s.entries := by
    simp only [timer_tick, on_timer_tick]
    split
    · split <;> simp [start_step]
    · rfl
  have hE2 : (timer_tick s).1.nextEid = s.nextEid := by
    simp only [timer_tick, on_timer_tick]
    split
    · split <;> simp [start_step]
    · rfl
  have hE3 : ∀ x, handlerCount (timer_tick s).2 x = 0 := by
    intro x
    simp only [timer_tick, on_timer_tick]
    split
    · split <;> simp [start_step, handlerCount]
    · simp [handlerCount]
  refine ⟨by rw [hE1]; exact hsorted, ?_⟩
  intro x
  have hx := hcount x
  rw [handlerCount_append, hE3, tableEids, hE1, hE2]
  simp only [tableEids] at hx
  omega

lemma tameFrom_of_noFire (acts : List Act)
    (h : acts.all (fun a => !isFire a) = true) (sd : Bool) :
    tameFrom sd acts = true := by
  induction acts with
  | nil => rfl
  | cons a rest ih =>
      simp only [List.all_cons, Bool.and_eq_true] at h
      obtain ⟨ha, hrest⟩ := h
      cases a with
      | fireCont k err b => simp [isFire] at ha
      | shutdown => exact hrest
      | push i b => exact ih hrest
      | applyAck i => exact ih hrest
      | timerTick => exact ih hrest

lemma invC1_run (acts : List Act) : ∀ (s : QState) (tr : List Ev),
    InvC1 s tr → tameFrom s.shutdownDone acts = true →
    InvC1 (run s acts).1 (tr ++ (run s acts).2) := by
  induction acts with
  | nil =>
      intro s tr h _
      show InvC1 s (tr ++ [])
      rw [List.append_nil]
      exact h
  | cons a rest ih =>
      intro s tr h htame
      simp only [run]
      rw [← List.append_assoc]
      cases a with
      | push i b =>
          have ht : tameFrom (push s i b).1.shutdownDone rest = true := by
            rw [push_shutdownDone]; exact htame
          exact ih (push s i b).1 (tr ++ (push s i b).2) (invC1_push s tr i b h) ht
      | applyAck i =>
          have ht : tameFrom (apply_ack s i).1.shutdownDone rest = true := by
            rw [ack_shutdownDone]; exact htame
          exact ih (apply_ack s i).1 (tr ++ (apply_ack s i).2) (invC1_ack s tr i h) ht
      | timerTick =>
          have ht : tameFrom (timer_tick s).1.shutdownDone rest = true := by
            rw [tick_shutdownDone]; exact htame
          exact ih (timer_tick s).1 (tr ++ (timer_tick s).2) (invC1_tick s tr h) ht
      | shutdown =>
          have hnf : rest.all (fun a => !isFire a) = true := htame
          exact ih (shutdown s).1 (tr ++ (shutdown s).2) (invC1_shutdown s tr h)
            (tameFrom_of_noFire rest hnf _)
      | fireCont k err b2 =>
          have htame2 : ((!s.shutdownDone && !Err.isError err)
              && tameFrom s.shutdownDone rest) = true := htame
          simp only [Bool.and_eq_true, Bool.not_eq_true'] at htame2
          obtain ⟨⟨hsd', herr'⟩, hrest⟩ := htame2
          have ht : tameFrom (fire_cont s k err b2).1.shutdownDone rest = true := by
            rw [fire_shutdownDone]
            exact hrest
          exact ih (fire_cont s k err b2).1 (tr ++ (fire_cont s k err b2).2)
            (invC1_fire s tr k err b2 hsd' herr' h) ht

/-- C5: acking an index absent from the table is a no-op: no state change,
no event of any kind (no handler, no step, no timer operation). -/
theorem C5_ack_absent (s : QState) (i : Nat)
    (h : lookupEntry s.entries i = none) :
    apply_ack s i = (s, []) := by
  simp [apply_ack, h]

theorem C5_witness : apply_ack initState 7 = (initState, []) :=
  C5_ack_absent initState 7 (by decide)

/-- C2: a continuation firing with a transport error while the shutdown
token is still alive invokes the entry's handler inline with the reported
error and byte count, and changes nothing else: the table is untouched
(no removal, the first entry stays first) and the timer is neither
restarted nor reconfigured (no timer event is emitted). -/
theorem C2_error_continuation (s : QState) (k : Nat) (p : Pend) (err : Err) (bytes : Nat)
    (hp : s.pending[k]? = some p) (hsd : s.shutdownDone = false)
    (he : err.isError = true) :
    fire_cont s k err bytes
      = ({s with pending := s.pending.eraseIdx k}, [Ev.handlerInline p.eid err bytes])
    ∧ (fire_cont s k err bytes).1.entries = s.entries
    ∧ (fire_cont s k err bytes).1.timerRunning = s.timerRunning
    ∧ (fire_cont s k err bytes).1.timerPeriod = s.timerPeriod := by
  simp [fire_cont, hp, hsd, he]

theorem C2_witness :
    fire_cont ⟨1, [(1, ⟨0, 10, 200⟩)], [⟨0, 200⟩], false, 0, false⟩ 0 (Err.transport 1) 3
      = (({ nextEid := 1, entries := [(1, ⟨0, 10, 200⟩)], pending := [],
            timerRunning := false, timerPeriod := 0, shutdownDone := false } : QState),
         [Ev.handlerInline 0 (Err.transport 1) 3]) :=
  (C2_error_continuation ⟨1, [(1, ⟨0, 10, 200⟩)], [⟨0, 200⟩], false, 0, false⟩ 0
     ⟨0, 200⟩ (Err.transport 1) 3 (by decide) (by decide) (by decide)).1

/-- C3: pushing an index that is already in the table leaves the map, the
pending continuations, the timer and the shutdown flag unchanged (only the
ghost handler-identity allocator advances), never invokes the new step,
and emits exactly one posted handler invocation with `already_started`
and byte count zero. -/
theorem C3_duplicate_push (s : QState) (i b : Nat) (e : EntryRec)
    (h : lookupEntry s.entries i = some e) :
    push s i b = ({s with nextEid := s.nextEid + 1},
                  [Ev.handlerPosted s.nextEid Err.already_started 0])
    ∧ (push s i b).1.entries = s.entries
    ∧ (push s i b).1.pending = s.pending
    ∧ (push s i b).1.timerRunning = s.timerRunning
    ∧ (push s i b).1.shutdownDone = s.shutdownDone := by
  simp [push, h]

theorem C3_witness :
    push ⟨1, [(1, ⟨0, 10, 200⟩)], [⟨0, 200⟩], false, 0, false⟩ 1 50
      = (({ nextEid := 2, entries := [(1, ⟨0, 10, 200⟩)], pending := [⟨0, 200⟩],
            timerRunning := false, timerPeriod := 0, shutdownDone := false } : QState),
         [Ev.handlerPosted 1 Err.already_started 0]) :=
  (C3_duplicate_push ⟨1, [(1, ⟨0, 10, 200⟩)], [⟨0, 200⟩], false, 0, false⟩ 1 50
     ⟨0, 10, 200⟩ (by decide)).1

/-- C6: `shutdown` empties the table (`size` becomes 0), invalidates the
token before stopping the timer (the event order is `tokenInvalidated`,
then `timerStop`, then the posts), and schedules — posted, never inline —
exactly one handler invocation with `operation_aborted` and the entry's
`buffer_size` for every entry present immediately before the call. -/
theorem C6_shutdown_completes_all (s : QState) (hn : (tableEids s).Nodup) :
    (shutdown s).1.entries = []
    ∧ size (shutdown s).1 = 0
    ∧ (shutdown s).1.shutdownDone = true
    ∧ (shutdown s).1.timerRunning = false
    ∧ (shutdown s).2
        = Ev.tokenInvalidated :: Ev.timerStop ::
            s.entries.map (fun p =>
              Ev.handlerPosted p.2.eid Err.operation_aborted p.2.buffer_size)
    ∧ (∀ p ∈ s.entries,
         handlerCount (shutdown s).2 p.2.eid = 1
         ∧ Ev.handlerPosted p.2.eid Err.operation_aborted p.2.buffer_size ∈ (shutdown s).2) := by
  refine ⟨rfl, rfl, rfl, rfl, rfl, ?_⟩
  intro p hp
  constructor
  · show handlerCount (Ev.tokenInvalidated :: Ev.timerStop :: _) p.2.eid = 1
    simp only [handlerCount, handlerCount_posts]
    exact cnt_eq_one_of_nodup _ _ hn (List.mem_map.mpr ⟨p, hp, rfl⟩)
  · show _ ∈ Ev.tokenInvalidated :: Ev.timerStop :: _
    exact List.mem_cons_of_mem _ (List.mem_cons_of_mem _
      (List.mem_map.mpr ⟨p, hp, rfl⟩))

theorem C6_witness :
    (shutdown ⟨2, [(1, ⟨0, 10, 200⟩), (2, ⟨1, 20, 200⟩)], [⟨0, 200⟩], true, 200, false⟩).2
      = [Ev.tokenInvalidated, Ev.timerStop,
         Ev.handlerPosted 0 Err.operation_aborted 10,
         Ev.handlerPosted 1 Err.operation_aborted 20] :=
  (C6_shutdown_completes_all
     ⟨2, [(1, ⟨0, 10, 200⟩), (2, ⟨1, 20, 200⟩)], [⟨0, 200⟩], true, 200, false⟩
     (by decide)).2.2.2.2.1

/-- C7: pushing a fresh index into an empty table inserts the entry, sets
its period to `initial_roundtrip_time`, and synchronously invokes its step
(the `stepStarted` event is emitted by `push` itself); pushing a fresh
index into a non-empty table inserts the entry (in key order, retrievable
by lookup, with the same period) but emits no event at all: no step and no
handler invocation occur for it. -/
theorem C7_fresh_push (s : QState) (i b : Nat)
    (h : lookupEntry s.entries i = none) :
    (s.entries = [] →
      push s i b
        = ({s with nextEid := s.nextEid + 1,
                   entries := [(i, ⟨s.nextEid, b, initial_roundtrip_time⟩)],
                   pending := s.pending ++ [⟨s.nextEid, initial_roundtrip_time⟩]},
           [Ev.stepStarted s.nextEid]))
    ∧ (s.entries ≠ [] →
        (push s i b).2 = []
        ∧ (push s i b).1.entries
            = insertSorted s.entries i ⟨s.nextEid, b, initial_roundtrip_time⟩
        ∧ lookupEntry (push s i b).1.entries i
            = some ⟨s.nextEid, b, initial_roundtrip_time⟩
        ∧ (push s i b).1.pending = s.pending
        ∧ (push s i b).1.timerRunning = s.timerRunning) := by
  constructor
  · intro he
    simp [push, h, he, start_step, insertSorted, lookupEntry]
  · intro hne
    have hemp : s.entries.isEmpty = false := by
      cases hE : s.entries with
      | nil => exact absurd hE hne
      | cons a l => rfl
    simp [push, h, hemp]
    exact lookup_insertSorted_self s.entries i _ h

theorem C7_witness :
    (push ⟨1, [(5, ⟨0, 10, 200⟩)], [⟨0, 200⟩], false, 0, false⟩ 3 42).2 = []
    ∧ lookupEntry (push ⟨1, [(5, ⟨0, 10, 200⟩)], [⟨0, 200⟩], false, 0, false⟩ 3 42).1.entries 3
        = some ⟨1, 42, 200⟩ := by
  have h := (C7_fresh_push ⟨1, [(5, ⟨0, 10, 200⟩)], [⟨0, 200⟩], false, 0, false⟩ 3 42
     (by decide)).2 (by decide)
  exact ⟨h.1, h.2.2.1⟩

/-- C4: acking a present index removes the entry first (the resulting map
is the erasure, under which the index is no longer found); the removed
entry was `entries.begin()` iff its index is minimal; if it was, the timer
is stopped and, when entries remain, the new first entry — which has the
minimal remaining index — has its step invoked (its continuation becomes
pending); in every case the removed entry's handler is invoked last, after
all table mutation and promotion, with success and the entry's
`buffer_size`. -/
theorem C4_ack_present (s : QState) (i : Nat) (e : EntryRec)
    (hs : sortedEntries s.entries)
    (h : lookupEntry s.entries i = some e) :
    (apply_ack s i).1.entries = eraseKey s.entries i
    ∧ lookupEntry (apply_ack s i).1.entries i = none
    ∧ (headKey s = some i ↔ ∀ k ∈ keysOf s.entries, i ≤ k)
    ∧ (headKey s = some i →
        (apply_ack s i).1.timerRunning = false
        ∧ (eraseKey s.entries i = [] →
            (apply_ack s i).2
              = [Ev.timerStop, Ev.handlerInline e.eid Err.success e.buffer_size])
        ∧ (∀ k2 h2 rest, eraseKey s.entries i = (k2, h2) :: rest →
            (apply_ack s i).2
              = [Ev.timerStop, Ev.stepStarted h2.eid,
                 Ev.handlerInline e.eid Err.success e.buffer_size]
            ∧ (∀ q ∈ keysOf (eraseKey s.entries i), k2 ≤ q)
            ∧ (apply_ack s i).1.pending = s.pending ++ [⟨h2.eid, h2.period⟩]))
    ∧ (headKey s ≠ some i →
        (apply_ack s i).2 = [Ev.handlerInline e.eid Err.success e.buffer_size]
        ∧ (apply_ack s i).1.timerRunning = s.timerRunning
        ∧ (apply_ack s i).1.pending = s.pending) := by
  obtain ⟨ne, ents, pend, tr, tp, sd⟩ := s
  cases hE : ents with
  | nil =>
      subst hE
      cases h
  | cons hd tl =>
      subst hE
      obtain ⟨k0, v0⟩ := hd
      simp only at h hs ⊢
      have hall : ∀ q ∈ tl, k0 < q.1 := by
        intro q hq
        exact (List.pairwise_cons.mp hs).1 q hq
      have hhead : headKey ⟨ne, (k0, v0) :: tl, pend, tr, tp, sd⟩ = some k0 := rfl
      by_cases hk : k0 = i
      · subst hk
        have hve : v0 = e := by simpa [lookupEntry] using h
        subst hve
        have hrest : eraseKey ((k0, v0) :: tl) k0 = tl := by
          rw [eraseKey_cons_self]
          apply filter_ne_eq_self
          intro p hp
          have := hall p hp
          omega
        have hmin : ∀ k ∈ keysOf ((k0, v0) :: tl), k0 ≤ k := by
          intro k hkm
          rcases List.mem_cons.mp hkm with hkm | hkm
          · omega
          · rcases List.mem_map.mp hkm with ⟨p, hp, hpk⟩
            have := hall p hp
            omega
        refine ⟨?_, ?_, ?_, ?_, ?_⟩
        · simp [apply_ack, h, hrest]
          cases tl with
          | nil => rfl
          | cons hd2 tl2 => obtain ⟨k2, h2⟩ := hd2; simp [start_step]
        · rw [show (apply_ack ⟨ne, (k0, v0) :: tl, pend, tr, tp, sd⟩ k0).1.entries
                = eraseKey ((k0, v0) :: tl) k0 from ?_]
          · exact lookup_eraseKey _ _
          · simp [apply_ack, h, hrest]
            cases tl with
            | nil => rfl
            | cons hd2 tl2 => obtain ⟨k2, h2⟩ := hd2; simp [start_step]
        · exact ⟨fun _ => hmin, fun _ => rfl⟩
        · intro _
          rw [hrest]
          refine ⟨?_, ?_, ?_⟩
          · simp [apply_ack, h, hrest]
            cases tl with
            | nil => rfl
            | cons hd2 tl2 => obtain ⟨k2, h2⟩ := hd2; simp [start_step]
          · intro htl
            subst htl
            simp [apply_ack, h, hrest]
          · intro k2 h2 rest hR
            subst hR
            refine ⟨?_, ?_, ?_⟩
            · simp [apply_ack, h, hrest, start_step]
            · intro q hq
              rcases List.mem_cons.mp hq with hq | hq
              · omega
              · rcases List.mem_map.mp hq with ⟨p, hp, hpk⟩
                have h1 := (List.pairwise_cons.mp (List.pairwise_cons.mp hs).2).1 p hp
                omega
            · simp [apply_ack, h, hrest, start_step]
        · intro hc
          exact absurd hhead hc
      · have hbeq : (k0 == i) = false := by
          simp [hk]
        have hne2 : headKey ⟨ne, (k0, v0) :: tl, pend, tr, tp, sd⟩ ≠ some i := by
          rw [hhead]
          intro hc
          exact hk (Option.some.injEq _ _ ▸ hc)
        have himem : i ∈ keysOf tl := by
          have := mem_keys_of_lookup _ _ _ h
          rcases List.mem_cons.mp this with hm | hm
          · exact absurd hm.symm hk
          · exact hm
        have hik : k0 < i := by
          rcases List.mem_map.mp himem with ⟨p, hp, hpk⟩
          have := hall p hp
          omega
        refine ⟨?_, ?_, ?_, ?_, ?_⟩
        · simp [apply_ack, h, hbeq, eraseKey]
        · simp only [apply_ack, h, hbeq]
          simp only [Bool.false_eq_true, if_false]
          exact lookup_eraseKey _ _
        · constructor
          · intro hc
            exact absurd hc hne2
          · intro hc
            have := hc k0 (List.mem_cons_self _ _)
            omega
        · intro hc
          exact absurd hc hne2
        · intro _
          simp [apply_ack, h, hbeq]

theorem C4_witness :
    (apply_ack ⟨2, [(1, ⟨0, 10, 200⟩), (2, ⟨1, 20, 200⟩)], [⟨0, 200⟩], true, 200, false⟩ 1).2
      = [Ev.timerStop, Ev.stepStarted 1,
         Ev.handlerInline 0 Err.success 10] := by
  have h := C4_ack_present
    ⟨2, [(1, ⟨0, 10, 200⟩), (2, ⟨1, 20, 200⟩)], [⟨0, 200⟩], true, 200, false⟩ 1
    ⟨0, 10, 200⟩ (by simp [sortedEntries]) (by decide)
  exact ((h.2.2.2.1 (by decide)).2.2 2 ⟨1, 20, 200⟩ [] (by decide)).1

/-- C9 as stated is false: `push` never consults the shutdown flag, so a
push after `shutdown` repopulates the table.  Concretely, running
`shutdown` then `push 1 10` from the initial state leaves the shutdown
flag set, yet the table holds one entry, retrievable under key 1. -/
theorem C9_counterexample :
    (run initState [Act.shutdown]).1.shutdownDone = true
    ∧ size (run initState [Act.shutdown, Act.push 1 10]).1 = 1
    ∧ lookupEntry (run initState [Act.shutdown, Act.push 1 10]).1.entries 1
        = some ⟨0, 10, 200⟩
    ∧ (run initState [Act.shutdown, Act.push 1 10]).1.shutdownDone = true := by
  decide

/-- C9 amended: shutdown is not terminal for the table.  A `push` of an
index not currently in the table succeeds even when the shutdown flag is
set: the entry is inserted (the table grows by one and the entry is
retrievable), exactly as for a pre-shutdown push. -/
theorem C9_push_after_shutdown (s : QState) (i b : Nat)
    (hsd : s.shutdownDone = true) (h : lookupEntry s.entries i = none) :
    lookupEntry (push s i b).1.entries i = some ⟨s.nextEid, b, initial_roundtrip_time⟩
    ∧ size (push s i b).1 = size s + 1
    ∧ (push s i b).1.shutdownDone = true := by
  have hins : (push s i b).1.entries
      = insertSorted s.entries i ⟨s.nextEid, b, initial_roundtrip_time⟩ := by
    simp only [push, h]
    by_cases he : s.entries.isEmpty
    · simp [he, start_step]
    · simp [he]
  have hsd' : (push s i b).1.shutdownDone = s.shutdownDone := by
    simp only [push, h]
    by_cases he : s.entries.isEmpty
    · simp [he, start_step]
    · simp [he]
  refine ⟨?_, ?_, hsd'.trans hsd⟩
  · rw [hins]
    exact lookup_insertSorted_self s.entries i _ h
  · show (push s i b).1.entries.length = s.entries.length + 1
    rw [hins]
    exact length_insertSorted s.entries i _

theorem C9_witness :
    lookupEntry (push ⟨3, [], [], false, 0, true⟩ 1 10).1.entries 1 = some ⟨3, 10, 200⟩
    ∧ size (push ⟨3, [], [], false, 0, true⟩ 1 10).1 = size ⟨3, [], [], false, 0, true⟩ + 1
    ∧ (push ⟨3, [], [], false, 0, true⟩ 1 10).1.shutdownDone = true :=
  C9_push_after_shutdown ⟨3, [], [], false, 0, true⟩ 1 10 (by decide) (by decide)

/-- C1 as stated is false: the continuation created by `start_step`
captures the entry and can fire after the entry has already been
completed.  Concretely: push 1 (step started), shutdown (posts the
handler with `operation_aborted`), then the in-flight continuation fires —
the dead shutdown token makes it call the same entry's handler again, for
a total of two invocations. -/
theorem C1_counterexample :
    (run initState [Act.push 1 10, Act.shutdown, Act.fireCont 0 Err.success 5]).2
      = [Ev.stepStarted 0, Ev.tokenInvalidated, Ev.timerStop,
         Ev.handlerPosted 0 Err.operation_aborted 10,
         Ev.handlerInline 0 Err.success 5]
    ∧ handlerCount
        (run initState [Act.push 1 10, Act.shutdown, Act.fireCont 0 Err.success 5]).2 0
        = 2 := by
  decide

/-- C1 amended: in every run in which each step continuation fires with
success and before any shutdown (so no continuation ever invokes a
handler itself), every handler allocated by `push` — the duplicate-
rejected ones included — is invoked at most once; exactly once if its
entry is no longer in the table (acked, shut down, or rejected), and zero
times while the entry is still present.  Without that restriction a
handler can fire twice (see the counterexample). -/
theorem C1_handler_exactly_once (acts : List Act) (h : tame acts = true) (x : Nat) :
    handlerCount (run initState acts).2 x ≤ 1
    ∧ (x ∈ tableEids (run initState acts).1 → handlerCount (run initState acts).2 x = 0)
    ∧ (x < (run initState acts).1.nextEid → x ∉ tableEids (run initState acts).1 →
         handlerCount (run initState acts).2 x = 1)
    ∧ ((run initState acts).1.nextEid ≤ x → handlerCount (run initState acts).2 x = 0) := by
  have hinit : InvC1 initState [] := by
    constructor
    · show List.Pairwise _ []
      simp
    · intro y
      show 0 + cnt (eidsOf []) y = if y < 0 then 1 else 0
      simp [eidsOf, cnt]
  have h2 := invC1_run acts initState [] hinit h
  obtain ⟨hs, hc⟩ := h2
  have hx := hc x
  rw [List.nil_append] at hx
  refine ⟨?_, ?_, ?_, ?_⟩
  · split_ifs at hx <;> omega
  · intro hmem
    have hpos := cnt_pos_of_mem _ _ hmem
    split_ifs at hx <;> omega
  · intro hlt hnm
    have hz := cnt_eq_zero_of_not_mem _ _ hnm
    rw [if_pos hlt] at hx
    omega
  · intro hge
    have hlt : ¬ x < (run initState acts).1.nextEid := by omega
    rw [if_neg hlt] at hx
    omega

theorem C1_witness :
    handlerCount (run initState
      [Act.push 1 10, Act.push 2 20, Act.push 1 5, Act.applyAck 1, Act.shutdown]).2 0
      = 1 := by
  have h := C1_handler_exactly_once
    [Act.push 1 10, Act.push 2 20, Act.push 1 5, Act.applyAck 1, Act.shutdown] (by decide) 0
  exact h.2.2.1 (by decide) (by decide)

/-- C8 as stated is false: the continuation of a step does not check
whether its entry is still in the table, so an ack racing a successful
transmission leaves the timer running over an empty table.  Concretely:
push 1, ack 1 (entry removed, timer stopped, table empty), then the
in-flight continuation fires with success — the continuation restarts the
timer although the table is empty. -/
theorem C8_counterexample :
    (run initState [Act.push 1 10, Act.applyAck 1, Act.fireCont 0 Err.success 10]).1.timerRunning
        = true
    ∧ (run initState [Act.push 1 10, Act.applyAck 1, Act.fireCont 0 Err.success 10]).1.entries
        = []
    ∧ (run initState [Act.push 1 10, Act.applyAck 1, Act.fireCont 0 Err.success 10]).1.shutdownDone
        = false := by
  decide

/-- C8 amended: the "only if" that survives — at every reachable state, if
the timer is running then no shutdown has occurred.  (The table may be
empty and no attempt of the current head need have completed: a stale
successful continuation restarts the timer unconditionally.) -/
theorem C8_timer_no_shutdown (acts : List Act)
    (h : (run initState acts).1.timerRunning = true) :
    (run initState acts).1.shutdownDone = false :=
  inv8_run acts initState (fun hc => by cases hc) h

theorem C8_witness :
    (run initState [Act.push 1 10, Act.fireCont 0 Err.success 10]).1.shutdownDone = false :=
  C8_timer_no_shutdown [Act.push 1 10, Act.fireCont 0 Err.success 10] (by decide)

/-- C10: a second `shutdown` with no intervening call is a no-op: it emits
no handler invocation (inline or posted) for any handler identity, and
returns the state exactly as the first `shutdown` left it (empty table,
timer stopped, token invalidated, pending set untouched). -/
theorem C10_shutdown_idempotent (s : QState) :
    shutdown (shutdown s).1 = ((shutdown s).1, [Ev.tokenInvalidated, Ev.timerStop])
    ∧ (∀ x, handlerCount (shutdown (shutdown s).1).2 x = 0)
    ∧ size (shutdown (shutdown s).1).1 = 0 :=
  ⟨rfl, fun _ => rfl, rfl⟩
